import Mathlib

/-!
Verification of the CRM campaign-optimization clustering core
(src/src/clustering_model.py.py) against its specification.

The Python core is embedded shallowly:
* feature vectors are `List ℚ` (the float semantics of numpy is abstracted to
  exact rationals, which is the real-valued reading the spec uses);
* a feature matrix is a `List (List ℚ)` of rows;
* `kmedians`, `find_optimal_k`, the cluster-ranking block and
  `calculate_cb_amount` keep their source names;
* fallible code (Python raising `IndexError`) returns `Option`.
-/

namespace CRM

/-- Modelled from the spec: the seeded pseudo-random generator behind
`np.random.seed(random_state)` / `np.random.choice(n, k, replace=False)` is
numpy-library code, not part of this repository.  Per §9 of the spec any
substitute generator is acceptable provided a fixed seed yields a fixed
initial medoid set; we model the stream with a linear congruential step. -/
def lcg (s : ℕ) : ℕ := (s * 1103515245 + 12345) % 2147483648

/-- Modelled from the spec: sampling without replacement driven by the seeded
generator — repeatedly draw an index into the remaining pool and remove the
drawn element.  Deterministic in the seed; draws are pairwise distinct. -/
def sampleNoReplace : ℕ → List ℕ → ℕ → List ℕ
  | _, _, 0 => []
  | s, pool, k + 1 =>
    if pool.isEmpty then []
    else
      let t := lcg s
      let i := t % pool.length
      pool.getD i 0 :: sampleNoReplace t (pool.eraseIdx i) k

/-- Model of `np.random.choice(n, k, replace=False)` after
`np.random.seed(seed)`: `k` distinct indices in `[0, n)`. -/
def randomChoice (seed n k : ℕ) : List ℕ :=
  sampleNoReplace seed (List.range n) k

/-- L1 (Manhattan) distance between two feature vectors:
`np.abs(x - m).sum()` (line 83 of the source, per medoid row). -/
def d1 (x m : List ℚ) : ℚ :=
  (List.zipWith (fun a b => |a - b|) x m).sum

/-- `np.min` over a one-dimensional list (line 85 builds `min_distances`). -/
def listMin : List ℚ → ℚ
  | [] => 0
  | [x] => x
  | x :: y :: t => min x (listMin (y :: t))

/-- `np.argmin` over a one-dimensional list: index of the minimum, with ties
broken by the first (lowest) index — numpy returns the first occurrence. -/
def argminIdx : List ℚ → ℕ
  | [] => 0
  | x :: xs => if xs = [] then 0 else if x ≤ listMin xs then 0 else argminIdx xs + 1

/-- Line 84 of the source: `labels = np.argmin(distances, axis=1)` where
`distances[i][j]` is the L1 distance of point `i` to medoid `j`. -/
def assignLabels (X ms : List (List ℚ)) : List ℕ :=
  X.map fun x => argminIdx (ms.map (d1 x))

/-- `np.median` of a one-dimensional list: sort ascending, take the middle
element (odd length) or the mean of the two middle elements (even length). -/
def npMedian (l : List ℚ) : ℚ :=
  let s := List.insertionSort (· ≤ ·) l
  let n := l.length
  if n % 2 = 1 then s.getD (n / 2) 0
  else (s.getD (n / 2 - 1) 0 + s.getD (n / 2) 0) / 2

/-- `np.median(rows, axis=0)`: the component-wise median of a set of rows,
each of width `d`. -/
def colMedians (d : ℕ) (rows : List (List ℚ)) : List ℚ :=
  (List.range d).map fun j => npMedian (rows.map fun r => r.getD j 0)

/-- Lines 88–91 of the source: each medoid becomes the component-wise median
of the points currently assigned to it; an empty cluster keeps its previous
medoid. -/
def updateMedoids (X : List (List ℚ)) (d nc : ℕ) (labels : List ℕ)
    (medoids : List (List ℚ)) : List (List ℚ) :=
  (List.range nc).map fun c =>
    let pts := ((X.zip labels).filter fun p => p.2 = c).map Prod.fst
    if pts.isEmpty then medoids.getD c [] else colMedians d pts

/-- `np.allclose(a, b)` with numpy's default tolerances
`rtol = 1e-5`, `atol = 1e-8`: all entries satisfy
`|a - b| ≤ atol + rtol * |b|` (line 92 of the source). -/
def allclose (A B : List (List ℚ)) : Bool :=
  (A.zip B).all fun rs =>
    (rs.1.zip rs.2).all fun ab =>
      decide (|ab.1 - ab.2| ≤ (1 / 100000000 : ℚ) + (1 / 100000 : ℚ) * |ab.2|)

/-- The triple returned by `kmedians`: per-point labels, medoid rows, and the
total L1 cost of the last completed assignment. -/
structure KMResult where
  labels : List ℕ
  medoids : List (List ℚ)
  cost : ℚ
deriving DecidableEq, Repr

/-- The iteration of `kmedians` (lines 82–94 of the source), with the
`range(max_iter)` loop counter as fuel.  Each pass recomputes labels via
`assignLabels`, the total cost, and the medoids; if the new medoids are
`allclose` to the old ones the loop breaks, returning the old medoids with
the labels and cost just computed — exactly the Python control flow. -/
def kmLoop (X : List (List ℚ)) (d nc : ℕ) :
    ℕ → List (List ℚ) → List ℕ → ℚ → KMResult
  | 0, ms, labels, cost => ⟨labels, ms, cost⟩
  | fuel + 1, ms, _, _ =>
    let labels := assignLabels X ms
    let cost := (X.map fun x => listMin (ms.map (d1 x))).sum
    let newMs := updateMedoids X d nc labels ms
    if allclose newMs ms then ⟨labels, ms, cost⟩
    else kmLoop X d nc fuel newMs labels cost

/-- Lines 72–96 of the source.  `kmedians X n_clusters max_iter random_state`:
if `len(X) < n_clusters` return all-zero labels, no medoids and cost 0;
otherwise draw `n_clusters` distinct medoid indices from the seeded generator
and iterate assignment / median update up to `max_iter` times. -/
def kmedians (X : List (List ℚ)) (n_clusters max_iter random_state : ℕ) :
    KMResult :=
  if X.length < n_clusters then ⟨List.replicate X.length 0, [], 0⟩
  else
    let ids := randomChoice random_state X.length n_clusters
    let medoids := ids.map fun i => X.getD i []
    kmLoop X (X.headD []).length n_clusters max_iter medoids
      (List.replicate X.length 0) 0

/-- Lines 100–104 of the source: the cost curve, one `kmedians` run per
`k = 1 .. max_k`, with the source's default `max_iter = 100`,
`random_state = 100`. -/
def elbowCosts (X : List (List ℚ)) (max_k : ℕ) : List ℚ :=
  (List.range' 1 max_k).map fun k => (kmedians X k 100 100).cost

/-- Lines 98–121 of the source.  Builds the cost curve, takes the line through
the endpoints `(1, costs[0])` and `(max_k, costs[-1])`, and scans `k`
ascending keeping the first `k` whose point-line distance strictly exceeds
the running maximum (initialised to 0 at `best_k = 1`).

Two modelling notes, both exact with respect to the float code:
* Python's `costs[0]` / `costs[-1]` raise `IndexError` on an empty curve
  (`max_k ≤ 0`); this is the `Option.none` branch.
* the distance is `numerator / sqrt(denomSq)` with `denomSq` constant over
  the scan, so the strict comparison of distances is the strict comparison
  of numerators whenever `denomSq ≠ 0`; when `denomSq = 0` (only possible
  for `max_k = 1`, where the numerator is 0 too) the float code computes
  `0.0/0.0 = NaN` and `NaN > max_distance` is false, modelled by the
  conjunct `denomSq ≠ 0` in the update guard. -/
def find_optimal_k (X : List (List ℚ)) (max_k : ℕ) : Option ℕ :=
  let costs := elbowCosts X max_k
  match costs.head?, costs.getLast? with
  | some c1, some cl =>
    let denomSq : ℚ := (cl - c1) ^ 2 + ((max_k : ℚ) - 1) ^ 2
    let kcs := (List.range' 1 max_k).zip costs
    let r := kcs.foldl
      (fun acc kc =>
        let num : ℚ :=
          |(cl - c1) * (kc.1 : ℚ) - ((max_k : ℚ) - 1) * kc.2
            + (max_k : ℚ) * c1 - cl * 1|
        if denomSq ≠ 0 ∧ acc.2 < num then (kc.1, num) else acc)
      ((1 : ℕ), (0 : ℚ))
    some r.1
  | _, _ => none

/-- First endpoint cost of the curve (`costs[0]`), total form. -/
def elbowC1 (X : List (List ℚ)) (max_k : ℕ) : ℚ := (elbowCosts X max_k).headD 0

/-- Last endpoint cost of the curve (`costs[-1]`), total form. -/
def elbowCL (X : List (List ℚ)) (max_k : ℕ) : ℚ :=
  (elbowCosts X max_k).getLastD 0

/-- The numerator of the point-to-line distance of `(k, cost_k)` to the line
through the curve's endpoints — line 113 of the source. -/
def elbowNum (X : List (List ℚ)) (max_k k : ℕ) : ℚ :=
  |(elbowCL X max_k - elbowC1 X max_k) * (k : ℚ)
    - ((max_k : ℚ) - 1) * (kmedians X k 100 100).cost
    + (max_k : ℚ) * elbowC1 X max_k - elbowCL X max_k * 1|

/-- The squared perpendicular Euclidean distance of `(k, cost_k)` to the line
through the endpoints of the cost curve.  Squaring keeps the value rational;
distances are non-negative, so comparisons of distances and of squared
distances agree. -/
def perpDistSq (X : List (List ℚ)) (max_k k : ℕ) : ℚ :=
  elbowNum X max_k k ^ 2 /
    ((elbowCL X max_k - elbowC1 X max_k) ^ 2 + ((max_k : ℚ) - 1) ^ 2)

/-- Mean of the primary metric over the members of cluster `c`: the mean of
`metric[i]` over the positions `i` with `labels[i] = c` (line 136's
`groupby("CLUSTER").mean()`). -/
def clusterMean (labels : List ℕ) (metric : List ℚ) (c : ℕ) : ℚ :=
  let vals := ((labels.zip metric).filter fun p => p.1 = c).map Prod.snd
  vals.sum / vals.length

/-- The distinct cluster ids occurring in `labels`, ascending — the group
keys of pandas `groupby("CLUSTER")`. -/
def clusterIds (labels : List ℕ) : List ℕ :=
  (List.range (labels.foldr max 0 + 1)).filter (· ∈ labels)

/-- The order in which line 137 of the source arranges the clusters:
ascending mean primary metric, ties kept in ascending original cluster id.
(`sort_values` receives the groups in ascending id order and, at the ≤ 15
group sizes that arise here, numpy's introsort reduces to a stable insertion
sort, so ties preserve that order: the sort is by the lexicographic key
(mean, id).) -/
def rankLe (labels : List ℕ) (metric : List ℚ) (a b : ℕ) : Prop :=
  clusterMean labels metric a < clusterMean labels metric b ∨
    (clusterMean labels metric a = clusterMean labels metric b ∧ a ≤ b)

instance (L : List ℕ) (M : List ℚ) : DecidableRel (rankLe L M) := fun _ _ => by
  unfold rankLe; exact inferInstance

instance (L : List ℕ) (M : List ℚ) : IsTotal ℕ (rankLe L M) where
  total a b := by
    rcases lt_trichotomy (clusterMean L M a) (clusterMean L M b) with h | h | h
    · exact Or.inl (Or.inl h)
    · rcases Nat.le_total a b with hab | hab
      · exact Or.inl (Or.inr ⟨h, hab⟩)
      · exact Or.inr (Or.inr ⟨h.symm, hab⟩)
    · exact Or.inr (Or.inl h)

instance (L : List ℕ) (M : List ℚ) : IsTrans ℕ (rankLe L M) where
  trans a b c hab hbc := by
    rcases hab with h1 | ⟨h1, h1'⟩ <;> rcases hbc with h2 | ⟨h2, h2'⟩
    · exact Or.inl (h1.trans h2)
    · exact Or.inl (h2 ▸ h1)
    · exact Or.inl (h1 ▸ h2)
    · exact Or.inr ⟨h1.trans h2, h1'.trans h2'⟩

/-- Line 137: the cluster ids sorted by mean primary metric (stable in the
original id for ties, see `rankLe`). -/
def sortedClusters (labels : List ℕ) (metric : List ℚ) : List ℕ :=
  List.insertionSort (rankLe labels metric) (clusterIds labels)

/-- Lines 138–139 of the source: `cluster_mapping` sends an original cluster
id to its 1-based position in the mean-sorted order. -/
def cluster_mapping (labels : List ℕ) (metric : List ℚ) (c : ℕ) : ℕ :=
  (sortedClusters labels metric).indexOf c + 1

/-- Line 140 of the source: the relabelled per-user cluster column. -/
def rankLabels (labels : List ℕ) (metric : List ℚ) : List ℕ :=
  labels.map (cluster_mapping labels metric)

/-- Lines 146–148 of the source: 10% of the cluster mean, rounded up to the
next multiple of 10 (`math.ceil(val_10_percent / 10.0) * 10`). -/
def calculate_cb_amount (mean_val : ℚ) : ℤ :=
  let val_10_percent := mean_val * (1 / 10)
  ⌈val_10_percent / 10⌉ * 10

end CRM

namespace CRM

/-! ### Generic list helpers -/

/-- `getD` through a `map`, at an in-range index. -/
lemma getD_map_lt {α β : Type} (f : α → β) :
    ∀ (l : List α) (i : ℕ), i < l.length → ∀ (da : α) (db : β),
      (l.map f).getD i db = f (l.getD i da)
  | _ :: _, 0, _, _, _ => rfl
  | _ :: l, i + 1, h, da, db => getD_map_lt f l i (by simpa using h) da db
  | [], i, h, _, _ => absurd h (by simp)

/-- An in-range `getD` is a member of the list. -/
lemma getD_mem_of_lt {α : Type} :
    ∀ (l : List α) (i : ℕ), i < l.length → ∀ (d : α), l.getD i d ∈ l
  | a :: l, 0, _, _ => List.mem_cons_self a l
  | a :: l, i + 1, h, d =>
    List.mem_cons_of_mem a (getD_mem_of_lt l i (by simpa using h) d)
  | [], i, h, _ => absurd h (by simp)

/-- Mapping a constant over a non-empty list has that constant as last entry. -/
lemma getLast?_map_const {α β : Type} (c : β) :
    ∀ (l : List α), l ≠ [] → (l.map fun _ => c).getLast? = some c
  | [_], _ => rfl
  | _ :: b :: t, _ => by
    have ih := getLast?_map_const c (b :: t) (by simp)
    simpa [List.getLast?_cons_cons] using ih

/-! ### C1: determinism of the engine -/

/-- C1.  Two invocations of `kmedians` with identical feature matrix,
cluster count, iteration cap and seed return identical labels, identical
medoids and identical total cost: the engine, including its seeded
pseudo-random initialisation, is a pure function of its four arguments. -/
theorem kmedians_deterministic (X1 X2 : List (List ℚ)) (k1 k2 it1 it2 s1 s2 : ℕ)
    (hk : 1 ≤ k1) (hX : X1 = X2) (hkk : k1 = k2) (hit : it1 = it2)
    (hs : s1 = s2) :
    (kmedians X1 k1 it1 s1).labels = (kmedians X2 k2 it2 s2).labels ∧
    (kmedians X1 k1 it1 s1).medoids = (kmedians X2 k2 it2 s2).medoids ∧
    (kmedians X1 k1 it1 s1).cost = (kmedians X2 k2 it2 s2).cost := by
  subst hX hkk hit hs
  exact ⟨rfl, rfl, rfl⟩

/-- Witness for C1 at `X = [[0]]`, `k = 1`, default caps and seed. -/
theorem kmedians_deterministic_witness :
    (kmedians [[0]] 1 100 100).labels = (kmedians [[0]] 1 100 100).labels ∧
    (kmedians [[0]] 1 100 100).medoids = (kmedians [[0]] 1 100 100).medoids ∧
    (kmedians [[0]] 1 100 100).cost = (kmedians [[0]] 1 100 100).cost :=
  kmedians_deterministic [[0]] [[0]] 1 1 100 100 100 100 (by decide) rfl rfl rfl rfl

/-! ### C2: degenerate input, fewer points than clusters -/

/-- C2.  When `len(X) < k` (including the empty input), `kmedians` returns
all-zero labels of length `len(X)`, an empty medoid set and cost 0, and in
particular every returned label is in range `[0, k)`. -/
theorem kmedians_degenerate (X : List (List ℚ)) (k it s : ℕ)
    (hk : 1 ≤ k) (h : X.length < k) :
    (kmedians X k it s).labels = List.replicate X.length 0 ∧
    (kmedians X k it s).medoids = [] ∧
    (kmedians X k it s).cost = 0 ∧
    ∀ l ∈ (kmedians X k it s).labels, l < k := by
  unfold kmedians
  rw [if_pos h]
  refine ⟨rfl, rfl, rfl, fun l hl => ?_⟩
  have := List.eq_of_mem_replicate hl
  omega

/-- Witness for C2 at the singleton input and `k = 2`. -/
theorem kmedians_degenerate_witness :
    (kmedians [[0]] 2 100 100).labels = List.replicate ([[(0:ℚ)]]).length 0 ∧
    (kmedians [[0]] 2 100 100).medoids = [] ∧
    (kmedians [[0]] 2 100 100).cost = 0 ∧
    ∀ l ∈ (kmedians [[0]] 2 100 100).labels, l < 2 :=
  kmedians_degenerate [[0]] 2 100 100 (by decide) (by decide)

/-! ### C8 and C9: the reward mapper -/

/-- C8.  The reward is exactly `10 * ⌈mean / 10 / 10⌉` — ten times the
ceiling of a tenth of ten percent of the mean — with the spec's three sample
values `47 ↦ 10`, `123 ↦ 20` and `0 ↦ 0`. -/
theorem calculate_cb_amount_exact :
    (∀ m : ℚ, calculate_cb_amount m = 10 * ⌈m * (1 / 10) / 10⌉) ∧
    calculate_cb_amount 47 = 10 ∧
    calculate_cb_amount 123 = 20 ∧
    calculate_cb_amount 0 = 0 := by
  have h47 : ⌈(47 / 100 : ℚ)⌉ = 1 := by rw [Int.ceil_eq_iff] <;> norm_num
  have h123 : ⌈(123 / 100 : ℚ)⌉ = 2 := by rw [Int.ceil_eq_iff] <;> norm_num
  refine ⟨fun m => ?_,
    by norm_num [calculate_cb_amount, h47],
    by norm_num [calculate_cb_amount, h123],
    by norm_num [calculate_cb_amount]⟩
  unfold calculate_cb_amount
  ring

/-- C9.  The reward mapper is monotone: a cluster with a smaller mean never
receives a larger reward. -/
theorem calculate_cb_amount_mono (m1 m2 : ℚ) (h : m1 ≤ m2) :
    calculate_cb_amount m1 ≤ calculate_cb_amount m2 := by
  unfold calculate_cb_amount
  have h1 : m1 * (1 / 10) / 10 ≤ m2 * (1 / 10) / 10 := by gcongr
  exact mul_le_mul_of_nonneg_right (Int.ceil_le_ceil h1) (by norm_num)

/-- Witness for C9 at `m1 = 15`, `m2 = 470`. -/
theorem calculate_cb_amount_mono_witness :
    calculate_cb_amount 15 ≤ calculate_cb_amount 470 :=
  calculate_cb_amount_mono 15 470 (by norm_num)

end CRM

namespace CRM

/-! ### C10: the elbow selector at `max_k = 1` -/

/-- C10.  With `max_k = 1` the two endpoints of the cost curve coincide, the
point-line denominator is zero and the float code's `0/0` distance is `NaN`;
the strict comparison against the running maximum therefore never fires
(modelled by the zero-denominator guard) and `find_optimal_k` returns the
initial `best_k = 1` without error. -/
theorem find_optimal_k_max1 (X : List (List ℚ)) (hX : X ≠ []) :
    find_optimal_k X 1 = some 1 := by
  have hc : elbowCosts X 1 = [(kmedians X 1 100 100).cost] := by
    unfold elbowCosts
    rw [List.range'_one]
    rfl
  unfold find_optimal_k
  rw [hc]
  simp [List.range'_one]

/-- Witness for C10 at the one-point input `[[0]]`. -/
theorem find_optimal_k_max1_witness : find_optimal_k [[0]] 1 = some 1 :=
  find_optimal_k_max1 [[0]] (by decide)

/-! ### C6: error behavior of the elbow selector -/

/-- Counterexample to C6 as stated: on the empty feature set with
`max_k = 2` the selector does not surface any error — it silently returns
cluster count 1. -/
theorem find_optimal_k_empty_no_error : find_optimal_k [] 2 = some 1 := by
  with_unfolding_all decide

/-- On the empty input every trial clustering is the degenerate one, so the
whole cost curve is zero. -/
lemma elbowCosts_nil (mk : ℕ) :
    elbowCosts [] mk = (List.range' 1 mk).map fun _ => (0 : ℚ) := by
  unfold elbowCosts
  refine List.map_congr_left fun k hk => ?_
  have hk1 : 1 ≤ k := (List.mem_range'_1.1 hk).1
  unfold kmedians
  rw [if_pos (by simpa using hk1)]

/-- A fold never moves off the initial accumulator when the step is a no-op
at that accumulator for every scanned element. -/
lemma foldl_fixed_of_no_update {α : Type} (step : ℕ × ℚ → α → ℕ × ℚ) :
    ∀ l : List α, (∀ p ∈ l, step (1, 0) p = (1, 0)) →
      l.foldl step (1, 0) = (1, 0)
  | [], _ => rfl
  | p :: t, h => by
    rw [List.foldl_cons, h p (List.mem_cons_self p t)]
    exact foldl_fixed_of_no_update step t fun q hq => h q (List.mem_cons_of_mem p hq)

/-- C6 amended.  Only the `max_k ≤ 0` half of the claim holds: an empty
candidate range makes the endpoint lookups fail (Python's `IndexError`,
modelled by `none`) before any clustering result is used.  An empty feature
set with `max_k ≥ 1` is *not* surfaced as an error: every trial run returns
the degenerate zero cost and the selector silently returns `k = 1`. -/
theorem find_optimal_k_error_behavior :
    (∀ X : List (List ℚ), find_optimal_k X 0 = none) ∧
    (∀ mk : ℕ, 1 ≤ mk → find_optimal_k [] mk = some 1) := by
  constructor
  · intro X
    rfl
  · intro mk hmk
    obtain ⟨m, rfl⟩ : ∃ m, mk = m + 1 := ⟨mk - 1, by omega⟩
    unfold find_optimal_k
    simp only [elbowCosts_nil, List.range'_succ, List.map_cons, List.head?_cons]
    have hlast :
        ((0 : ℚ) :: ((List.range' (1 + 1) m).map fun _ => (0 : ℚ))).getLast?
          = some 0 := by
      have h := getLast?_map_const (0 : ℚ) (1 :: List.range' (1 + 1) m)
        (List.cons_ne_nil _ _)
      simpa using h
    rw [hlast]
    simp only [List.zip_cons_cons]
    have hall : ∀ p ∈ ((1, (0 : ℚ)) ::
        (List.range' (1 + 1) m).zip ((List.range' (1 + 1) m).map fun _ => (0 : ℚ))),
        p.2 = 0 := by
      intro p hp
      rcases List.mem_cons.1 hp with rfl | hp2
      · rfl
      · have h2 := (List.of_mem_zip hp2).2
        have h3 : ¬m = 0 ∧ p.2 = 0 := by simpa using h2
        exact h3.2
    exact congrArg (fun z : ℕ × ℚ => some z.1)
      (foldl_fixed_of_no_update _ _ fun p hp => by simp [hall p hp])

/-- Witness for the amended C6 at `X = [[0],[1]]` (part one) and `mk = 3`. -/
theorem find_optimal_k_error_behavior_witness :
    find_optimal_k [[0], [1]] 0 = none ∧ find_optimal_k [] 3 = some 1 :=
  ⟨find_optimal_k_error_behavior.1 [[0], [1]],
    find_optimal_k_error_behavior.2 3 (by decide)⟩

end CRM

namespace CRM

/-! ### The arg-min step: C4, and the range half of C3 -/

/-- `listMin` over a cons of a non-empty tail is the binary `min`. -/
lemma listMin_cons (x : ℚ) (xs : List ℚ) (h : xs ≠ []) :
    listMin (x :: xs) = min x (listMin xs) := by
  cases xs with
  | nil => exact absurd rfl h
  | cons y t => rfl

/-- `listMin` is a lower bound of the list. -/
lemma listMin_le_of_mem : ∀ (l : List ℚ) (a : ℚ), a ∈ l → listMin l ≤ a
  | [], _, h => absurd h (List.not_mem_nil _)
  | [x], a, h => by
    rw [List.mem_singleton.1 h]
    exact le_refl _
  | x :: y :: t, a, h => by
    rcases List.mem_cons.1 h with rfl | h2
    · exact min_le_left _ _
    · exact le_trans (min_le_right _ _) (listMin_le_of_mem (y :: t) a h2)

/-- Unfolding equation for `argminIdx` on a cons cell. -/
lemma argminIdx_cons (x : ℚ) (xs : List ℚ) :
    argminIdx (x :: xs) =
      if xs = [] then 0 else if x ≤ listMin xs then 0 else argminIdx xs + 1 :=
  rfl

/-- The arg-min index is in range for a non-empty list. -/
lemma argminIdx_lt_length : ∀ (l : List ℚ), l ≠ [] → argminIdx l < l.length
  | [], h => absurd rfl h
  | x :: xs, _ => by
    rw [argminIdx_cons]
    by_cases hxs : xs = []
    · simp [hxs]
    · by_cases hle : x ≤ listMin xs
      · simp [hxs, hle]
      · rw [if_neg hxs, if_neg hle]
        have ih := argminIdx_lt_length xs hxs
        simpa using Nat.succ_lt_succ ih

/-- The entry at the arg-min index is the minimum of the list. -/
lemma getD_argminIdx : ∀ (l : List ℚ), l ≠ [] → l.getD (argminIdx l) 0 = listMin l
  | [], h => absurd rfl h
  | [x], _ => by simp [argminIdx, listMin]
  | x :: y :: t, _ => by
    by_cases hle : x ≤ listMin (y :: t)
    · have ha : argminIdx (x :: y :: t) = 0 := by
        rw [argminIdx_cons, if_neg (List.cons_ne_nil y t), if_pos hle]
      rw [ha, List.getD_cons_zero, listMin_cons x (y :: t) (List.cons_ne_nil y t)]
      exact (min_eq_left hle).symm
    · have ha : argminIdx (x :: y :: t) = argminIdx (y :: t) + 1 := by
        rw [argminIdx_cons, if_neg (List.cons_ne_nil y t), if_neg hle]
      rw [ha, List.getD_cons_succ, getD_argminIdx (y :: t) (List.cons_ne_nil y t),
        listMin_cons x (y :: t) (List.cons_ne_nil y t),
        min_eq_right (le_of_lt (not_le.1 hle))]

/-- Every entry strictly before the arg-min index is strictly above the
minimum: the arg-min is the first position attaining the minimum. -/
lemma listMin_lt_getD_before_argmin :
    ∀ (l : List ℚ) (j : ℕ), j < argminIdx l → listMin l < l.getD j 0
  | [], j, h => by simp [argminIdx] at h
  | x :: xs, j, h => by
    by_cases hxs : xs = []
    · rw [argminIdx_cons, if_pos hxs] at h
      exact absurd h (Nat.not_lt_zero j)
    · by_cases hle : x ≤ listMin xs
      · rw [argminIdx_cons, if_neg hxs, if_pos hle] at h
        exact absurd h (Nat.not_lt_zero j)
      · rw [argminIdx_cons, if_neg hxs, if_neg hle] at h
        rw [listMin_cons x xs hxs, min_eq_right (le_of_lt (not_le.1 hle))]
        cases j with
        | zero =>
          rw [List.getD_cons_zero]
          exact not_le.1 hle
        | succ j0 =>
          rw [List.getD_cons_succ]
          exact listMin_lt_getD_before_argmin xs j0 (by omega)

/-- C4.  In each iteration of `kmedians` (whose loop body `kmLoop` computes
its labels via `assignLabels`), every point receives the index of the medoid
at minimum L1 distance, and when several medoids attain that minimum the
point receives the lowest such index: the assigned index is in range, its
distance is a lower bound of all medoid distances, and every strictly
smaller index has strictly larger distance. -/
theorem assignLabels_argmin (X ms : List (List ℚ)) (hms : ms ≠ []) (i : ℕ)
    (hi : i < X.length) :
    (assignLabels X ms).getD i 0 < ms.length ∧
    (∀ j, j < ms.length →
      d1 (X.getD i []) (ms.getD ((assignLabels X ms).getD i 0) []) ≤
        d1 (X.getD i []) (ms.getD j [])) ∧
    (∀ j, j < (assignLabels X ms).getD i 0 →
      d1 (X.getD i []) (ms.getD j []) >
        d1 (X.getD i []) (ms.getD ((assignLabels X ms).getD i 0) [])) := by
  have hx : (assignLabels X ms).getD i 0 = argminIdx (ms.map (d1 (X.getD i []))) := by
    unfold assignLabels
    exact getD_map_lt _ X i hi [] 0
  set x := X.getD i [] with hxdef
  set L := ms.map (d1 x) with hL
  have hLne : L ≠ [] := by
    rw [hL]
    simpa using hms
  have hLlen : L.length = ms.length := by
    rw [hL]
    exact List.length_map _ _
  have harg : argminIdx L < ms.length := by
    rw [← hLlen]
    exact argminIdx_lt_length L hLne
  have hmin : L.getD (argminIdx L) 0 = listMin L := getD_argminIdx L hLne
  have hgetm : ∀ j, j < ms.length → L.getD j 0 = d1 x (ms.getD j []) := by
    intro j hj
    rw [hL]
    exact getD_map_lt _ ms j hj [] 0
  refine ⟨by rw [hx]; exact harg, fun j hj => ?_, fun j hj => ?_⟩
  · rw [hx, ← hgetm _ harg, ← hgetm _ hj, hmin]
    exact listMin_le_of_mem L _ (getD_mem_of_lt L j (by omega) 0)
  · rw [hx] at hj ⊢
    rw [← hgetm _ harg, ← hgetm _ (by omega), hmin]
    exact listMin_lt_getD_before_argmin L j hj

/-- Witness for C4 at `X = [[5]]`, medoids `[[9], [5], [1]]`, point 0:
conjunct one of the theorem instantiated there. -/
theorem assignLabels_argmin_witness :
    (assignLabels [[5]] [[9], [5], [1]]).getD 0 0 < 3 :=
  (assignLabels_argmin [[5]] [[9], [5], [1]] (by decide) 0 (by decide)).1

end CRM

namespace CRM

/-! ### C3: label range and medoid count for `len(X) ≥ k` -/

/-- The sampler returns `min k n` draws from a pool of size `n`. -/
lemma length_sampleNoReplace :
    ∀ (k : ℕ) (pool : List ℕ) (s : ℕ),
      (sampleNoReplace s pool k).length = min k pool.length
  | 0, pool, s => by simp [sampleNoReplace]
  | k + 1, [], s => by simp [sampleNoReplace]
  | k + 1, a :: t, s => by
    have hstep : sampleNoReplace s (a :: t) (k + 1) =
        (a :: t).getD (lcg s % (a :: t).length) 0 ::
          sampleNoReplace (lcg s) ((a :: t).eraseIdx (lcg s % (a :: t).length)) k :=
      rfl
    have hlt : lcg s % (a :: t).length < (a :: t).length :=
      Nat.mod_lt _ (by simp)
    have herase :
        ((a :: t).eraseIdx (lcg s % (a :: t).length)).length = t.length := by
      rw [List.length_eraseIdx, if_pos hlt]
      simp
    rw [hstep, List.length_cons, length_sampleNoReplace k _ (lcg s), herase]
    simp only [List.length_cons]
    omega

/-- `randomChoice` returns `min k n` indices. -/
lemma length_randomChoice (seed n k : ℕ) :
    (randomChoice seed n k).length = min k n := by
  unfold randomChoice
  rw [length_sampleNoReplace, List.length_range]

/-- Loop invariant of `kmLoop`: with `nc ≥ 1` medoids maintained at count
`nc` and in-range labels, the result has in-range labels and `nc` medoids. -/
lemma kmLoop_labels_medoids (X : List (List ℚ)) (d nc : ℕ) (hnc : 1 ≤ nc) :
    ∀ (fuel : ℕ) (ms : List (List ℚ)) (labels : List ℕ) (cost : ℚ),
      ms.length = nc → (∀ l ∈ labels, l < nc) →
      (∀ l ∈ (kmLoop X d nc fuel ms labels cost).labels, l < nc) ∧
      (kmLoop X d nc fuel ms labels cost).medoids.length = nc
  | 0, ms, labels, cost, hms, hlab => ⟨hlab, hms⟩
  | fuel + 1, ms, labels, cost, hms, hlab => by
    have hmsne : ms ≠ [] := by
      intro hh
      rw [hh] at hms
      simp at hms
      omega
    have hlab2 : ∀ l ∈ assignLabels X ms, l < nc := by
      intro l hl
      obtain ⟨x, hxX, rfl⟩ := List.mem_map.1 hl
      have h1 : argminIdx (ms.map (d1 x)) < (ms.map (d1 x)).length :=
        argminIdx_lt_length _ (by simpa using hmsne)
      rw [List.length_map] at h1
      omega
    have hupd : (updateMedoids X d nc (assignLabels X ms) ms).length = nc := by
      unfold updateMedoids
      rw [List.length_map, List.length_range]
    have hred : kmLoop X d nc (fuel + 1) ms labels cost =
        if allclose (updateMedoids X d nc (assignLabels X ms) ms) ms then
          (⟨assignLabels X ms, ms,
            (X.map fun x => listMin (ms.map (d1 x))).sum⟩ : KMResult)
        else
          kmLoop X d nc fuel (updateMedoids X d nc (assignLabels X ms) ms)
            (assignLabels X ms) (X.map fun x => listMin (ms.map (d1 x))).sum :=
      rfl
    rw [hred]
    by_cases hcl :
        allclose (updateMedoids X d nc (assignLabels X ms) ms) ms = true
    · rw [if_pos hcl]
      exact ⟨hlab2, hms⟩
    · rw [if_neg hcl]
      exact kmLoop_labels_medoids X d nc hnc fuel _ _ _ hupd hlab2

/-- C3 amended.  For `1 ≤ k ≤ len(X)` every label returned by `kmedians`
lies in `[0, k)` and the returned medoid list has exactly `k` entries.  (The
claim's stronger statement that the `k` medoid vectors are pairwise
distinct fails — see the counterexample — since duplicate input rows give
duplicate medoids.) -/
theorem kmedians_range (X : List (List ℚ)) (k it s : ℕ) (hk : 1 ≤ k)
    (hkX : k ≤ X.length) :
    (∀ l ∈ (kmedians X k it s).labels, l < k) ∧
    (kmedians X k it s).medoids.length = k := by
  unfold kmedians
  rw [if_neg (not_lt.2 hkX)]
  refine kmLoop_labels_medoids X _ k hk it _ _ _ ?_ ?_
  · rw [List.length_map, length_randomChoice]
    omega
  · intro l hl
    have := List.eq_of_mem_replicate hl
    omega

/-- Witness for the amended C3 at `X = [[0], [17]]`, `k = 1`. -/
theorem kmedians_range_witness :
    (∀ l ∈ (kmedians [[0], [17]] 1 100 100).labels, l < 1) ∧
    (kmedians [[0], [17]] 1 100 100).medoids.length = 1 :=
  kmedians_range [[0], [17]] 1 100 100 (by decide) (by decide)

/-- Counterexample to C3 as stated: on the duplicate-row input
`X = [[0], [0]]` with `k = 2 ≤ len(X)` the engine returns the two medoid
vectors `[0]` and `[0]`, which are not pairwise distinct — the medoid set
does not contain `k` distinct vectors. -/
theorem kmedians_distinct_counterexample :
    (kmedians [[0], [0]] 2 100 100).medoids = [[0], [0]] ∧
    ¬ (kmedians [[0], [0]] 2 100 100).medoids.Pairwise (· ≠ ·) := by
  constructor
  · with_unfolding_all decide
  · with_unfolding_all decide

end CRM

namespace CRM

/-! ### C7: the cluster ranker -/

/-- Every entry of a list is bounded by its `foldr max 0`. -/
lemma le_foldr_max : ∀ (L : List ℕ) (a : ℕ), a ∈ L → a ≤ L.foldr max 0
  | b :: t, a, h => by
    rcases List.mem_cons.1 h with rfl | h2
    · exact le_max_left _ _
    · exact le_trans (le_foldr_max t a h2) (le_max_right b _)
  | [], a, h => absurd h (List.not_mem_nil a)

/-- Every label occurring in `L` is listed among the cluster ids. -/
lemma mem_clusterIds (L : List ℕ) (a : ℕ) (h : a ∈ L) : a ∈ clusterIds L := by
  unfold clusterIds
  rw [List.mem_filter]
  refine ⟨List.mem_range.2 ?_, by simpa using h⟩
  have := le_foldr_max L a h
  omega

/-- Positions in the mean-sorted cluster list respect `rankLe`. -/
lemma sortedClusters_rel (L : List ℕ) (M : List ℚ) {c b : ℕ}
    (hc : c ∈ sortedClusters L M) (hb : b ∈ sortedClusters L M)
    (h : (sortedClusters L M).indexOf c < (sortedClusters L M).indexOf b) :
    rankLe L M c b := by
  have hsort : (sortedClusters L M).Sorted (rankLe L M) :=
    List.sorted_insertionSort _ _
  have hcl : (sortedClusters L M).indexOf c < (sortedClusters L M).length :=
    List.indexOf_lt_length.2 hc
  have hbl : (sortedClusters L M).indexOf b < (sortedClusters L M).length :=
    List.indexOf_lt_length.2 hb
  have hrel := hsort.rel_get_of_lt
    (show (⟨(sortedClusters L M).indexOf c, hcl⟩ : Fin (sortedClusters L M).length)
        < ⟨(sortedClusters L M).indexOf b, hbl⟩ from h)
  rwa [List.indexOf_get, List.indexOf_get] at hrel

/-- C7.  The relabeling of `cluster_mapping` ranks clusters by mean primary
metric: a lower final label never has a larger mean; equal means are
numbered in ascending order of the original cluster index; and the
relabeling does not change membership — two users share a final label
exactly when they shared an original one. -/
theorem cluster_mapping_ranks (L : List ℕ) (M : List ℚ) :
    (∀ c ∈ clusterIds L, ∀ b ∈ clusterIds L,
        cluster_mapping L M c < cluster_mapping L M b →
        clusterMean L M c ≤ clusterMean L M b) ∧
    (∀ c ∈ clusterIds L, ∀ b ∈ clusterIds L,
        clusterMean L M c = clusterMean L M b → c < b →
        cluster_mapping L M c < cluster_mapping L M b) ∧
    (∀ i j, i < L.length → j < L.length →
        ((rankLabels L M).getD i 0 = (rankLabels L M).getD j 0 ↔
          L.getD i 0 = L.getD j 0)) := by
  have hmem : ∀ c ∈ clusterIds L, c ∈ sortedClusters L M := fun c hc =>
    (List.mem_insertionSort _).2 hc
  have hinj : ∀ c ∈ clusterIds L, ∀ b ∈ clusterIds L,
      cluster_mapping L M c = cluster_mapping L M b → c = b := by
    intro c hc b hb h
    have hidx : (sortedClusters L M).indexOf c = (sortedClusters L M).indexOf b := by
      unfold cluster_mapping at h
      omega
    exact (List.indexOf_inj (hmem c hc) (hmem b hb)).1 hidx
  refine ⟨?_, ?_, ?_⟩
  · intro c hc b hb h
    have hlt : (sortedClusters L M).indexOf c < (sortedClusters L M).indexOf b := by
      unfold cluster_mapping at h
      omega
    rcases sortedClusters_rel L M (hmem c hc) (hmem b hb) hlt with h1 | ⟨h1, _⟩
    · exact le_of_lt h1
    · exact le_of_eq h1
  · intro c hc b hb hmean hcb
    by_contra hnot
    rcases Nat.lt_or_ge (cluster_mapping L M b) (cluster_mapping L M c) with hlt | hge
    · have hidx : (sortedClusters L M).indexOf b < (sortedClusters L M).indexOf c := by
        unfold cluster_mapping at hlt
        omega
      rcases sortedClusters_rel L M (hmem b hb) (hmem c hc) hidx with h1 | ⟨_, h2⟩
      · exact absurd hmean.symm (ne_of_lt h1)
      · omega
    · have heq : cluster_mapping L M c = cluster_mapping L M b := by omega
      have := hinj c hc b hb heq
      omega
  · intro i j hi hj
    have hgi : (rankLabels L M).getD i 0 = cluster_mapping L M (L.getD i 0) :=
      getD_map_lt _ L i hi 0 0
    have hgj : (rankLabels L M).getD j 0 = cluster_mapping L M (L.getD j 0) :=
      getD_map_lt _ L j hj 0 0
    rw [hgi, hgj]
    constructor
    · intro h
      exact hinj _ (mem_clusterIds L _ (getD_mem_of_lt L i hi 0)) _
        (mem_clusterIds L _ (getD_mem_of_lt L j hj 0)) h
    · intro h
      rw [h]

/-- Witness for C7: on labels `[0, 1, 0]` with metric `[1, 10, 3]`, cluster 0
(final label 1) has mean 2 and cluster 1 (final label 2) has mean 10;
conjunct one of the theorem instantiated there. -/
theorem cluster_mapping_ranks_witness :
    clusterMean [0, 1, 0] [1, 10, 3] 0 ≤ clusterMean [0, 1, 0] [1, 10, 3] 1 :=
  (cluster_mapping_ranks [0, 1, 0] [1, 10, 3]).1 0 (by decide) 1 (by decide)
    (by with_unfolding_all decide)

end CRM

namespace CRM

/-! ### C5: the elbow selector picks the first maximum-distance k -/

/-- `head?` of a non-empty list in `headD` form. -/
lemma head?_eq_headD {α : Type} (l : List α) (h : l ≠ []) (d : α) :
    l.head? = some (l.headD d) := by
  cases l with
  | nil => exact absurd rfl h
  | cons a t => rfl

/-- `getLast?` of a non-empty list in `getLastD` form. -/
lemma getLast?_eq_getLastD {α : Type} :
    ∀ (l : List α), l ≠ [] → ∀ (d : α), l.getLast? = some (l.getLastD d)
  | [x], _, d => rfl
  | x :: y :: t, _, d => by
    rw [List.getLast?_cons_cons, getLast?_eq_getLastD (y :: t) (by simp) d]
    congr 1

/-- The cost curve has one entry per candidate `k`. -/
lemma length_elbowCosts (X : List (List ℚ)) (mk : ℕ) :
    (elbowCosts X mk).length = mk := by
  unfold elbowCosts
  rw [List.length_map, List.length_range']

/-- The cost curve is non-empty when at least one `k` is scanned. -/
lemma elbowCosts_ne_nil (X : List (List ℚ)) (mk : ℕ) (h : 1 ≤ mk) :
    elbowCosts X mk ≠ [] := by
  intro hnil
  have hlen := length_elbowCosts X mk
  rw [hnil] at hlen
  simp at hlen
  omega

/-- The first entry of the cost curve is the `k = 1` cost. -/
lemma elbowC1_eq (X : List (List ℚ)) (mk : ℕ) (h : 1 ≤ mk) :
    elbowC1 X mk = (kmedians X 1 100 100).cost := by
  obtain ⟨m, rfl⟩ : ∃ m, mk = m + 1 := ⟨mk - 1, by omega⟩
  unfold elbowC1 elbowCosts
  rw [List.range'_succ]
  rfl

/-- The `k = 1` endpoint lies on the reference line: its numerator is 0. -/
lemma elbowNum_one (X : List (List ℚ)) (mk : ℕ) (h : 1 ≤ mk) :
    elbowNum X mk 1 = 0 := by
  unfold elbowNum
  rw [elbowC1_eq X mk h]
  push_cast
  rw [show (elbowCL X mk - (kmedians X 1 100 100).cost) * (1 : ℚ) -
      ((mk : ℚ) - 1) * (kmedians X 1 100 100).cost +
      (mk : ℚ) * (kmedians X 1 100 100).cost - elbowCL X mk * 1 = 0 from by ring,
    abs_zero]

/-- The running-maximum scan over an ascending key list computes the first
arg-max: the final accumulator carries the value of its key, dominates every
scanned value, moved only strictly upward, and any scanned key attaining the
final value is at or after the final key. -/
lemma foldl_first_argmax (f : ℕ → ℚ) :
    ∀ (ks : List ℕ) (a r : ℕ × ℚ),
      r = ks.foldl (fun acc k => if acc.2 < f k then (k, f k) else acc) a →
      a.2 = f a.1 →
      (∀ k ∈ ks, a.1 ≤ k) →
      ks.Pairwise (· ≤ ·) →
      r.2 = f r.1 ∧ a.2 ≤ r.2 ∧ (r.1 = a.1 ∨ r.1 ∈ ks) ∧
        (∀ k ∈ ks, f k ≤ r.2) ∧ (a.2 = r.2 → r.1 = a.1) ∧
        (∀ k ∈ ks, f k = r.2 → r.1 ≤ k)
  | [], a, r, hr, ha, _, _ => by
    subst hr
    exact ⟨ha, le_refl _, Or.inl rfl, by simp, fun _ => rfl, by simp⟩
  | x :: t, a, r, hr, ha, hbound, hpair => by
    rw [List.foldl_cons] at hr
    have hpt : t.Pairwise (· ≤ ·) := (List.pairwise_cons.1 hpair).2
    have hxt : ∀ k ∈ t, x ≤ k := (List.pairwise_cons.1 hpair).1
    by_cases hcase : a.2 < f x
    · rw [if_pos hcase] at hr
      obtain ⟨h1, h2, h3, h4, h5, h6⟩ :=
        foldl_first_argmax f t (x, f x) r hr rfl hxt hpt
      have hfx : f x ≤ r.2 := h2
      refine ⟨h1, le_of_lt (lt_of_lt_of_le hcase hfx), ?_, ?_, ?_, ?_⟩
      · rcases h3 with h | h
        · exact Or.inr (h ▸ List.mem_cons_self x t)
        · exact Or.inr (List.mem_cons_of_mem x h)
      · intro k hk
        rcases List.mem_cons.1 hk with rfl | hk2
        · exact hfx
        · exact h4 k hk2
      · intro heq
        exact absurd heq (ne_of_lt (lt_of_lt_of_le hcase hfx))
      · intro k hk hfk
        rcases List.mem_cons.1 hk with rfl | hk2
        · rw [h5 hfk]
        · exact h6 k hk2 hfk
    · rw [if_neg hcase] at hr
      obtain ⟨h1, h2, h3, h4, h5, h6⟩ :=
        foldl_first_argmax f t a r hr ha
          (fun k hk => hbound k (List.mem_cons_of_mem x hk)) hpt
      refine ⟨h1, h2, ?_, ?_, h5, ?_⟩
      · rcases h3 with h | h
        · exact Or.inl h
        · exact Or.inr (List.mem_cons_of_mem x h)
      · intro k hk
        rcases List.mem_cons.1 hk with rfl | hk2
        · exact le_trans (le_of_not_lt hcase) h2
        · exact h4 k hk2
      · intro k hk hfk
        rcases List.mem_cons.1 hk with rfl | hk2
        · have hax : a.2 = r.2 := le_antisymm h2 (hfk ▸ le_of_not_lt hcase)
          rw [h5 hax]
          exact hbound k (List.mem_cons_self k t)
        · exact h6 k hk2 hfk

end CRM

namespace CRM

/-- The point-line numerator is an absolute value, hence non-negative. -/
lemma elbowNum_nonneg (X : List (List ℚ)) (mk k : ℕ) : 0 ≤ elbowNum X mk k :=
  abs_nonneg _

/-- C5.  For a non-empty feature set and `max_k ≥ 1`, `find_optimal_k`
returns a `kstar` in `[1, max_k]` whose `(k, cost)` point attains the
maximum perpendicular Euclidean distance (compared via its square
`perpDistSq`, which agrees with the distance on non-negative values) to the
line through the curve endpoints, and among equal-distance candidates the
smallest `k` is returned. -/
theorem find_optimal_k_elbow (X : List (List ℚ)) (max_k : ℕ) (hX : X ≠ [])
    (hmk : 1 ≤ max_k) :
    ∃ kstar, find_optimal_k X max_k = some kstar ∧ 1 ≤ kstar ∧ kstar ≤ max_k ∧
      (∀ k, 1 ≤ k → k ≤ max_k →
        perpDistSq X max_k k ≤ perpDistSq X max_k kstar) ∧
      (∀ k, 1 ≤ k → k ≤ max_k →
        perpDistSq X max_k k = perpDistSq X max_k kstar → kstar ≤ k) := by
  have hcne := elbowCosts_ne_nil X max_k hmk
  have hhead := head?_eq_headD (elbowCosts X max_k) hcne 0
  have hlast := getLast?_eq_getLastD (elbowCosts X max_k) hcne 0
  unfold find_optimal_k
  simp only [hhead, hlast]
  have hc1 : (elbowCosts X max_k).headD 0 = elbowC1 X max_k := rfl
  have hclv : (elbowCosts X max_k).getLastD 0 = elbowCL X max_k := rfl
  rw [hc1, hclv]
  by_cases hD0 : (elbowCL X max_k - elbowC1 X max_k) ^ 2 + ((max_k : ℚ) - 1) ^ 2 = 0
  · have hsq1 : ((max_k : ℚ) - 1) ^ 2 = 0 := by
      nlinarith [sq_nonneg (elbowCL X max_k - elbowC1 X max_k),
        sq_nonneg ((max_k : ℚ) - 1)]
    have hmk1 : max_k = 1 := by
      have hq : (max_k : ℚ) - 1 = 0 :=
        (pow_eq_zero_iff (by norm_num : (2 : ℕ) ≠ 0)).1 hsq1
      have hq1 : (max_k : ℚ) = 1 := by linarith
      exact_mod_cast hq1
    subst hmk1
    have hco : elbowCosts X 1 = [(kmedians X 1 100 100).cost] := by
      unfold elbowCosts
      rw [List.range'_one]
      rfl
    rw [List.range'_one, hco]
    simp only [List.zip_cons_cons, List.zip_nil_left, List.foldl_cons,
      List.foldl_nil]
    rw [if_neg fun hcon => hcon.1 hD0]
    refine ⟨1, rfl, le_refl 1, le_refl 1, ?_, ?_⟩
    · intro k hk1 hk2
      have hk : k = 1 := by omega
      subst hk
      exact le_refl _
    · intro k hk1 hk2 _
      omega
  · have hDpos : 0 < (elbowCL X max_k - elbowC1 X max_k) ^ 2 + ((max_k : ℚ) - 1) ^ 2 :=
      lt_of_le_of_ne (by positivity) (Ne.symm hD0)
    have hzip : (List.range' 1 max_k).zip (elbowCosts X max_k)
        = (List.range' 1 max_k).map fun k => (k, (kmedians X k 100 100).cost) := by
      unfold elbowCosts
      nth_rewrite 1 [← List.map_id (List.range' 1 max_k)]
      rw [List.zip_map']
      rfl
    rw [hzip, List.foldl_map]
    have hnum : ∀ k : ℕ,
        |(elbowCL X max_k - elbowC1 X max_k) * (k : ℚ) -
          ((max_k : ℚ) - 1) * (kmedians X k 100 100).cost +
          (max_k : ℚ) * elbowC1 X max_k - elbowCL X max_k * 1|
          = elbowNum X max_k k := fun k => rfl
    simp only [hnum, hD0, ne_eq, not_false_eq_true, true_and]
    obtain ⟨h1, h2, h3, h4, h5, h6⟩ :=
      foldl_first_argmax (elbowNum X max_k) (List.range' 1 max_k) (1, 0) _ rfl
        (elbowNum_one X max_k hmk).symm
        (fun k hk => (List.mem_range'_1.1 hk).1)
        ((List.pairwise_lt_range' 1 max_k).imp fun h => le_of_lt h)
    set r := (List.range' 1 max_k).foldl
      (fun acc k => if acc.2 < elbowNum X max_k k then (k, elbowNum X max_k k) else acc)
      (1, 0) with hrdef
    have hr1 : 1 ≤ r.1 := by
      rcases h3 with h | h
      · omega
      · exact (List.mem_range'_1.1 h).1
    have hr2 : r.1 ≤ max_k := by
      rcases h3 with h | h
      · omega
      · have := (List.mem_range'_1.1 h).2
        omega
    have hperp : ∀ k : ℕ, perpDistSq X max_k k =
        elbowNum X max_k k ^ 2 /
          ((elbowCL X max_k - elbowC1 X max_k) ^ 2 + ((max_k : ℚ) - 1) ^ 2) :=
      fun k => rfl
    refine ⟨r.1, rfl, hr1, hr2, ?_, ?_⟩
    · intro k hk1 hk2
      have hkmem : k ∈ List.range' 1 max_k := List.mem_range'_1.2 ⟨hk1, by omega⟩
      have hfk : elbowNum X max_k k ≤ elbowNum X max_k r.1 := by
        rw [← h1]
        exact h4 k hkmem
      rw [hperp k, hperp r.1]
      refine (div_le_div_iff_of_pos_right hDpos).2 ?_
      exact pow_le_pow_left (elbowNum_nonneg X max_k k) hfk 2
    · intro k hk1 hk2 hpeq
      have hkmem : k ∈ List.range' 1 max_k := List.mem_range'_1.2 ⟨hk1, by omega⟩
      rw [hperp k, hperp r.1] at hpeq
      have hsq : elbowNum X max_k k ^ 2 = elbowNum X max_k r.1 ^ 2 := by
        have h' := congrArg
          (fun z => z * ((elbowCL X max_k - elbowC1 X max_k) ^ 2 +
            ((max_k : ℚ) - 1) ^ 2)) hpeq
        simpa [div_mul_cancel₀, hD0] using h'
      have hfeq : elbowNum X max_k k = elbowNum X max_k r.1 :=
        le_antisymm
          (le_of_pow_le_pow_left (by norm_num) (elbowNum_nonneg X max_k r.1)
            (le_of_eq hsq))
          (le_of_pow_le_pow_left (by norm_num) (elbowNum_nonneg X max_k k)
            (le_of_eq hsq.symm))
      exact h6 k hkmem (hfeq.trans h1.symm)

/-- Witness for C5 at `X = [[0]]`, `max_k = 2`. -/
theorem find_optimal_k_elbow_witness :
    ∃ kstar, find_optimal_k [[0]] 2 = some kstar ∧ 1 ≤ kstar ∧ kstar ≤ 2 ∧
      (∀ k, 1 ≤ k → k ≤ 2 →
        perpDistSq [[0]] 2 k ≤ perpDistSq [[0]] 2 kstar) ∧
      (∀ k, 1 ≤ k → k ≤ 2 →
        perpDistSq [[0]] 2 k = perpDistSq [[0]] 2 kstar → kstar ≤ k) :=
  find_optimal_k_elbow [[0]] 2 (by decide) (by decide)

end CRM
